import Mathlib

/-!
Verification of the core algorithms of `rapp` (src/rapp.cpp), an X11
application launcher: the Levenshtein edit-distance dynamic program, the
BK-tree fuzzy index, the query/filter/ranking pipeline, the prompt edit
buffer with its emacs-style motions, and the history log round-trip.

Machine integers of the C++ source (`int`, `size_t`) are modelled as
`Nat`/`Int`; wraparound is modelled explicitly (mod 2^64) at the one place
the program can actually underflow (`pcursor--` in `_pcursor::pop_back`).
Elsewhere values are bounded by string/vector sizes, far below the
overflow thresholds, so the unbounded model coincides with the machine.
-/

namespace Rapp

/-- Reference Levenshtein distance, by the standard front recursion.
The C++ dynamic program `BKTree::edit_distance_` is proved below to compute
`lev` on the reversed strings (its DP rows run over prefixes, which are
suffixes of the reversals); all metric facts are proved for `lev` over
arbitrary lists and transferred. -/
def lev : List Char → List Char → Nat
  | [], ys => ys.length
  | xs, [] => xs.length
  | x :: xs, y :: ys =>
    min (lev xs (y :: ys) + 1)
      (min (lev (x :: xs) ys + 1) (lev xs ys + (if x = y then 0 else 1)))

@[simp] theorem lev_nil_left (ys : List Char) : lev [] ys = ys.length := by
  cases ys <;> simp [lev]

@[simp] theorem lev_nil_right (xs : List Char) : lev xs [] = xs.length := by
  cases xs <;> simp [lev]

theorem lev_cons (a b : Char) (xs ys : List Char) :
    lev (a :: xs) (b :: ys) =
      min (lev xs (b :: ys) + 1)
        (min (lev (a :: xs) ys + 1) (lev xs ys + (if a = b then 0 else 1))) := by
  rw [lev.eq_3]

theorem lev_le_ins (b : Char) (xs ys : List Char) :
    lev xs (b :: ys) ≤ lev xs ys + 1 := by
  cases xs with
  | nil => simp
  | cons x xs =>
    rw [lev_cons]
    exact le_trans (min_le_right _ _) (le_trans (min_le_left _ _) (le_refl _))

theorem lev_le_del (a : Char) (xs ys : List Char) :
    lev (a :: xs) ys ≤ lev xs ys + 1 := by
  cases ys with
  | nil => simp
  | cons y ys =>
    rw [lev_cons]
    exact min_le_left _ _

theorem lev_le_copy (c : Char) (xs ys : List Char) :
    lev (c :: xs) (c :: ys) ≤ lev xs ys := by
  rw [lev_cons]
  refine le_trans (min_le_right _ _) (le_trans (min_le_right _ _) ?_)
  simp

theorem lev_le_subst (a b : Char) (xs ys : List Char) :
    lev (a :: xs) (b :: ys) ≤ lev xs ys + 1 := by
  rw [lev_cons]
  refine le_trans (min_le_right _ _) (le_trans (min_le_right _ _) ?_)
  have : (if a = b then 0 else 1) ≤ 1 := by split <;> omega
  omega

/-- Edit scripts: `ETrans a b n` holds when `a` can be transformed into `b`
with `n` single-character edits (copy is free; substitution, insertion and
deletion each cost 1).  `lev` is proved to be the least such `n`. -/
inductive ETrans : List Char → List Char → Nat → Prop
  | nil : ETrans [] [] 0
  | copy {xs ys n} (h : ETrans xs ys n) (c : Char) : ETrans (c :: xs) (c :: ys) n
  | subst {xs ys n} (h : ETrans xs ys n) (a b : Char) : ETrans (a :: xs) (b :: ys) (n + 1)
  | ins {xs ys n} (h : ETrans xs ys n) (b : Char) : ETrans xs (b :: ys) (n + 1)
  | del {xs ys n} (h : ETrans xs ys n) (a : Char) : ETrans (a :: xs) ys (n + 1)

theorem etrans_nil_left : ∀ ys : List Char, ETrans [] ys ys.length
  | [] => ETrans.nil
  | y :: ys => ETrans.ins (etrans_nil_left ys) y

theorem etrans_nil_right : ∀ xs : List Char, ETrans xs [] xs.length
  | [] => ETrans.nil
  | x :: xs => ETrans.del (etrans_nil_right xs) x

/-- The recursion of `lev` is realized by an edit script. -/
theorem etrans_lev : ∀ a b : List Char, ETrans a b (lev a b)
  | [], ys => by simpa using etrans_nil_left ys
  | x :: xs, [] => by simpa using etrans_nil_right (x :: xs)
  | x :: xs, y :: ys => by
    rw [lev_cons]
    rcases Nat.le_total (lev xs (y :: ys) + 1)
        (min (lev (x :: xs) ys + 1) (lev xs ys + (if x = y then 0 else 1))) with h | h
    · rw [min_eq_left h]
      exact ETrans.del (etrans_lev xs (y :: ys)) x
    · rw [min_eq_right h]
      rcases Nat.le_total (lev (x :: xs) ys + 1)
          (lev xs ys + (if x = y then 0 else 1)) with h2 | h2
      · rw [min_eq_left h2]
        exact ETrans.ins (etrans_lev (x :: xs) ys) y
      · rw [min_eq_right h2]
        by_cases hxy : x = y
        · subst hxy
          simpa using ETrans.copy (etrans_lev xs ys) x
        · simp only [if_neg hxy]
          exact ETrans.subst (etrans_lev xs ys) x y

/-- `lev` lower-bounds every edit script. -/
theorem lev_le_of_etrans {a b : List Char} {n : Nat} (h : ETrans a b n) :
    lev a b ≤ n := by
  induction h with
  | nil => simp
  | copy h c ih => exact le_trans (lev_le_copy _ _ _) ih
  | subst h a b ih => exact le_trans (lev_le_subst _ _ _ _) (by omega)
  | ins h b ih => exact le_trans (lev_le_ins _ _ _) (by omega)
  | del h a ih => exact le_trans (lev_le_del _ _ _) (by omega)

theorem etrans_symm {a b : List Char} {n : Nat} (h : ETrans a b n) :
    ETrans b a n := by
  induction h with
  | nil => exact ETrans.nil
  | copy h c ih => exact ETrans.copy ih c
  | subst h a b ih => exact ETrans.subst ih b a
  | ins h b ih => exact ETrans.del ih b
  | del h a ih => exact ETrans.ins ih a

/-- Symmetry of the Levenshtein distance. -/
theorem lev_comm (a b : List Char) : lev a b = lev b a :=
  le_antisymm (lev_le_of_etrans (etrans_symm (etrans_lev b a)))
    (lev_le_of_etrans (etrans_symm (etrans_lev a b)))

theorem etrans_refl : ∀ a : List Char, ETrans a a 0
  | [] => ETrans.nil
  | x :: xs => ETrans.copy (etrans_refl xs) x

/-- Identity of indiscernibles, easy direction. -/
theorem lev_self (a : List Char) : lev a a = 0 :=
  Nat.le_zero.mp (lev_le_of_etrans (etrans_refl a))

/-- Composition of edit scripts, with cost bounded by the sum.  Strong
induction on `m + n + length a + length c` (packaged as fuel). -/
theorem etrans_comp :
    ∀ (fuel : Nat) (a b c : List Char) (m n : Nat),
      m + n + a.length + c.length ≤ fuel →
      ETrans a b m → ETrans b c n → ∃ k, k ≤ m + n ∧ ETrans a c k := by
  intro fuel
  induction fuel with
  | zero =>
    intro a b c m n hle h1 h2
    have ha : a = [] := List.eq_nil_of_length_eq_zero (by omega)
    have hc : c = [] := List.eq_nil_of_length_eq_zero (by omega)
    subst ha; subst hc
    exact ⟨0, by omega, ETrans.nil⟩
  | succ fuel ih =>
    intro a b c m n hle h1 h2
    cases h1 with
    | nil =>
      -- a = [], b = [], m = 0: the second script is the answer
      exact ⟨n, by omega, h2⟩
    | del h1' =>
      -- a = a0 :: xs: delete a0 first, then compose the rest
      obtain ⟨k, hk, hT⟩ :=
        ih _ _ _ _ _ (by (try simp only [List.length_cons] at hle); (try simp only [List.length_cons]); omega) h1' h2
      exact ⟨k + 1, by omega, ETrans.del hT _⟩
    | copy h1' =>
      -- b = c0 :: ys
      cases h2 with
      | copy h2' =>
        obtain ⟨k, hk, hT⟩ :=
          ih _ _ _ _ _ (by (try simp only [List.length_cons] at hle); (try simp only [List.length_cons]); omega) h1' h2'
        exact ⟨k, by omega, ETrans.copy hT _⟩
      | subst h2' =>
        obtain ⟨k, hk, hT⟩ :=
          ih _ _ _ _ _ (by (try simp only [List.length_cons] at hle); (try simp only [List.length_cons]); omega) h1' h2'
        exact ⟨k + 1, by omega, ETrans.subst hT _ _⟩
      | ins h2' =>
        obtain ⟨k, hk, hT⟩ :=
          ih _ _ _ _ _ (by (try simp only [List.length_cons] at hle); (try simp only [List.length_cons]); omega)
            (ETrans.copy h1' _) h2'
        exact ⟨k + 1, by omega, ETrans.ins hT _⟩
      | del h2' =>
        obtain ⟨k, hk, hT⟩ :=
          ih _ _ _ _ _ (by (try simp only [List.length_cons] at hle); (try simp only [List.length_cons]); omega) h1' h2'
        exact ⟨k + 1, by omega, ETrans.del hT _⟩
    | subst h1' =>
      -- b = b0 :: ys
      cases h2 with
      | copy h2' =>
        obtain ⟨k, hk, hT⟩ :=
          ih _ _ _ _ _ (by (try simp only [List.length_cons] at hle); (try simp only [List.length_cons]); omega) h1' h2'
        exact ⟨k + 1, by omega, ETrans.subst hT _ _⟩
      | subst h2' =>
        obtain ⟨k, hk, hT⟩ :=
          ih _ _ _ _ _ (by (try simp only [List.length_cons] at hle); (try simp only [List.length_cons]); omega) h1' h2'
        exact ⟨k + 1, by omega, ETrans.subst hT _ _⟩
      | ins h2' =>
        obtain ⟨k, hk, hT⟩ :=
          ih _ _ _ _ _ (by (try simp only [List.length_cons] at hle); (try simp only [List.length_cons]); omega)
            (ETrans.subst h1' _ _) h2'
        exact ⟨k + 1, by omega, ETrans.ins hT _⟩
      | del h2' =>
        obtain ⟨k, hk, hT⟩ :=
          ih _ _ _ _ _ (by (try simp only [List.length_cons] at hle); (try simp only [List.length_cons]); omega) h1' h2'
        exact ⟨k + 1, by omega, ETrans.del hT _⟩
    | ins h1' =>
      -- a unchanged, b = b0 :: ys
      cases h2 with
      | copy h2' =>
        obtain ⟨k, hk, hT⟩ :=
          ih _ _ _ _ _ (by (try simp only [List.length_cons] at hle); (try simp only [List.length_cons]); omega) h1' h2'
        exact ⟨k + 1, by omega, ETrans.ins hT _⟩
      | subst h2' =>
        obtain ⟨k, hk, hT⟩ :=
          ih _ _ _ _ _ (by (try simp only [List.length_cons] at hle); (try simp only [List.length_cons]); omega) h1' h2'
        exact ⟨k + 1, by omega, ETrans.ins hT _⟩
      | ins h2' =>
        obtain ⟨k, hk, hT⟩ :=
          ih _ _ _ _ _ (by (try simp only [List.length_cons] at hle); (try simp only [List.length_cons]); omega)
            (ETrans.ins h1' _) h2'
        exact ⟨k + 1, by omega, ETrans.ins hT _⟩
      | del h2' =>
        obtain ⟨k, hk, hT⟩ :=
          ih _ _ _ _ _ (by (try simp only [List.length_cons] at hle); (try simp only [List.length_cons]); omega) h1' h2'
        exact ⟨k, by omega, hT⟩

/-- Triangle inequality for the Levenshtein distance. -/
theorem lev_triangle (a b c : List Char) : lev a c ≤ lev a b + lev b c := by
  obtain ⟨k, hk, hT⟩ :=
    etrans_comp (lev a b + lev b c + a.length + c.length) a b c
      (lev a b) (lev b c) (le_refl _) (etrans_lev a b) (etrans_lev b c)
  exact le_trans (lev_le_of_etrans hT) hk

/-! ### The dynamic program of `BKTree::edit_distance_`

The C++ code keeps two rolling rows `prev`/`curr` indexed by prefixes of
`b` and iterates the outer loop over the characters of `a`:

    prev[j] = j;                          // row 0
    curr[0] = i;
    curr[j] = min(prev[j] + 1, curr[j - 1] + 1, prev[j - 1] + cost);
    prev.swap(curr);
    return prev[m];

`levRowGo` is the inner `j`-loop (walking the remaining characters of `b`
and the matching tail of `prev`, threading `curr[j-1]` as `left`),
`levLoop` is the outer `i`-loop, and `edit_distance_` adds the two early
returns for empty operands. -/

def levRowGo (x : Char) : List Char → List Nat → Nat → List Nat
  | y :: ys, p0 :: p1 :: ps, left =>
    let c := min (p1 + 1) (min (left + 1) (p0 + (if x = y then 0 else 1)))
    c :: levRowGo x ys (p1 :: ps) c
  | _, _, _ => []

def levLoop (b : List Char) : List Char → List Nat → Nat → List Nat
  | [], prev, _ => prev
  | x :: xs, prev, i => levLoop b xs (i :: levRowGo x b prev i) (i + 1)

/-- Faithful model of `BKTree::edit_distance_(a, b)` from src/rapp.cpp
(strings as `List Char`, `int` as `Nat`: all intermediate values are
bounded by `max n m`, so 32-bit overflow cannot occur for real strings). -/
def edit_distance_ (a b : List Char) : Nat :=
  if a.length = 0 then b.length
  else if b.length = 0 then a.length
  else (levLoop b a (List.range (b.length + 1)) 1).getLast?.getD 0

/-- The tail of a DP row: value of row `pR` against each extension of the
processed `b`-prefix `qR` (both kept reversed) by successive characters of
`bs`. -/
def rowAuxT (pR : List Char) : List Char → List Char → List Nat
  | _, [] => []
  | qR, y :: ys => lev pR (y :: qR) :: rowAuxT pR (y :: qR) ys

/-- Specification of a full DP row. -/
def rowAux (pR qR bs : List Char) : List Nat :=
  lev pR qR :: rowAuxT pR qR bs

theorem rowAuxT_cons (pR qR : List Char) (y : Char) (ys : List Char) :
    rowAuxT pR qR (y :: ys) = rowAux pR (y :: qR) ys := by
  rw [rowAuxT, rowAux]

theorem levRowGo_spec (x : Char) (pR : List Char) :
    ∀ (bs qR : List Char),
      levRowGo x bs (rowAux pR qR bs) (lev (x :: pR) qR) =
        rowAuxT (x :: pR) qR bs := by
  intro bs
  induction bs with
  | nil => intro qR; rfl
  | cons y ys ih =>
    intro qR
    rw [rowAux, rowAuxT_cons, rowAux, levRowGo]
    have hc : min (lev pR (y :: qR) + 1)
        (min (lev (x :: pR) qR + 1) (lev pR qR + (if x = y then 0 else 1))) =
        lev (x :: pR) (y :: qR) := (lev_cons x y pR qR).symm
    rw [hc, rowAuxT_cons, rowAux]
    have := ih (y :: qR)
    rw [rowAux] at this
    rw [this]

theorem levLoop_spec (b : List Char) :
    ∀ (as_ pR : List Char),
      levLoop b as_ (rowAux pR [] b) (pR.length + 1) =
        rowAux (List.reverseAux as_ pR) [] b := by
  intro as_
  induction as_ with
  | nil => intro pR; rw [levLoop, List.reverseAux]
  | cons x xs ih =>
    intro pR
    rw [levLoop]
    have hlen : pR.length + 1 = lev (x :: pR) [] := by simp
    have hrow : (pR.length + 1) :: levRowGo x b (rowAux pR [] b) (pR.length + 1) =
        rowAux (x :: pR) [] b := by
      rw [hlen, levRowGo_spec x pR b [], rowAux]
    rw [hrow]
    have := ih (x :: pR)
    simpa [List.reverseAux] using this

theorem rowAux_nil_row (bs qR : List Char) :
    rowAux [] qR bs = List.range' qR.length (bs.length + 1) := by
  induction bs generalizing qR with
  | nil => simp [rowAux, rowAuxT, List.range'_one]
  | cons y ys ih =>
    rw [rowAux, rowAuxT_cons, List.range']
    simp only [lev_nil_left, List.length_cons]
    rw [ih (y :: qR)]
    simp

theorem rowAux_getLast (pR : List Char) :
    ∀ (bs qR : List Char),
      (rowAux pR qR bs).getLast? = some (lev pR (List.reverseAux bs qR)) := by
  intro bs
  induction bs with
  | nil => intro qR; rw [rowAux, rowAuxT]; rfl
  | cons y ys ih =>
    intro qR
    rw [rowAux, rowAuxT_cons, rowAux, List.getLast?_cons_cons]
    have h := ih (y :: qR)
    rw [rowAux] at h
    rw [h]
    rfl

/-- The C++ rolling-row dynamic program computes the Levenshtein distance
of the reversed operands (its rows run over prefixes; `lev` peels fronts). -/
theorem edit_distance_eq_lev (a b : List Char) :
    edit_distance_ a b = lev a.reverse b.reverse := by
  rw [edit_distance_]
  rcases a with - | ⟨x, xs⟩
  · simp
  rcases b with - | ⟨y, ys⟩
  · simp
  have hinit : List.range ((y :: ys).length + 1) = rowAux [] [] (y :: ys) := by
    rw [rowAux_nil_row]
    simp [List.range_eq_range']
  have h1 : (1 : Nat) = ([] : List Char).length + 1 := by simp
  rw [if_neg (by simp), if_neg (by simp), hinit, h1,
    levLoop_spec (y :: ys) (x :: xs) [], rowAux_getLast]
  simp [List.reverseAux_eq]

theorem edit_distance_comm (a b : List Char) :
    edit_distance_ a b = edit_distance_ b a := by
  rw [edit_distance_eq_lev, edit_distance_eq_lev, lev_comm]

theorem edit_distance_self (a : List Char) : edit_distance_ a a = 0 := by
  rw [edit_distance_eq_lev, lev_self]

theorem edit_distance_nil (s : List Char) : edit_distance_ [] s = s.length := by
  rw [edit_distance_eq_lev]
  simp

theorem edit_distance_triangle (a b c : List Char) :
    edit_distance_ a c ≤ edit_distance_ a b + edit_distance_ b c := by
  rw [edit_distance_eq_lev, edit_distance_eq_lev, edit_distance_eq_lev]
  exact lev_triangle _ _ _

/-! ### The BK-tree of `struct BKTree` (src/rapp.cpp:177-267)

`Node` holds an index into the global `apps` vector and an unordered map
from edit distance to child; the map is modelled as an association list
with distinct keys (`unordered_map` keys are unique).  `insert` descends
along existing distance edges and attaches the new node at the first
missing edge; `query_rec` emits a node when it is within `max_dist` of the
target and recurses into every child edge in the band
`[dist - max_dist, dist + max_dist]`. -/

inductive BKNode : Type where
  | node (idx : Nat) (children : List (Nat × BKNode))

/-- `apps[i].name` (apps names as a list; out-of-range reads never occur in
the built tree, totalized with `[]`). -/
def nameOf (names : List (List Char)) (i : Nat) : List Char :=
  names.getD i []

/-- `children.find(w)` where `w` is a C++ `int` and the map keys are
`size_t` edit distances.  A negative `w` converts to a value of at least
2^63, which can never equal a stored edit distance (distances are bounded
by name lengths), so the lookup misses. -/
def findChild (ch : List (Nat × BKNode)) (w : Int) : Option BKNode :=
  if w < 0 then none
  else (ch.find? (fun p => p.1 == w.toNat)).map Prod.snd

/-- `curr->children[dist] = new Node(idx)` on the edge that already exists:
replace the subtree stored under key `d`. -/
def replaceChild (ch : List (Nat × BKNode)) (d : Nat) (c' : BKNode) :
    List (Nat × BKNode) :=
  ch.map (fun p => if p.1 = d then (d, c') else p)

theorem sizeOf_lt_of_findChild {ch : List (Nat × BKNode)} {w : Int} {c : BKNode}
    (h : findChild ch w = some c) : sizeOf c < sizeOf ch := by
  rw [findChild] at h
  split at h
  · exact absurd h (by simp)
  · obtain ⟨p, hp, hpc⟩ := Option.map_eq_some.mp h
    have hm : p ∈ ch := List.mem_of_find?_eq_some hp
    have hs := List.sizeOf_lt_of_mem hm
    cases p with
    | mk k c0 =>
      simp only at hpc
      subst hpc
      simp only [Prod.mk.sizeOf_spec] at hs
      omega

/-- `BKTree::insert(idx)` (non-NULL root case): descend along the first
child edge labelled with the computed distance; attach a fresh leaf at the
first missing edge.  `edit_distance(idx, curr->idx)` compares
`apps[idx].name` with `apps[curr->idx].name`, inserted entry first. -/
def bkInsert (names : List (List Char)) : BKNode → Nat → BKNode
  | .node i ch, j =>
    match hfc : findChild ch (edit_distance_ (nameOf names j) (nameOf names i) : Nat) with
    | none =>
      .node i ((edit_distance_ (nameOf names j) (nameOf names i), .node j []) :: ch)
    | some c =>
      .node i (replaceChild ch (edit_distance_ (nameOf names j) (nameOf names i))
        (bkInsert names c j))
termination_by t _ => sizeOf t
decreasing_by
  have h1 := sizeOf_lt_of_findChild hfc
  simp only [BKNode.node.sizeOf_spec]
  omega

/-- The integer loop `for (int i = dist - max_dist; i <= dist + max_dist; ++i)`:
the list of visited `int` values. -/
def bandInts (d maxDist : Nat) : List Int :=
  (List.range (2 * maxDist + 1)).map (fun t : Nat => (d : Int) - (maxDist : Int) + (t : Int))

/-- `BKTree::query_rec` on a non-NULL node: emit the node's entry when its
distance to the target is within `max_dist`, then recurse into every child
edge found in the band (the `.attach` only carries the membership proof
needed for termination). -/
def queryRec (names : List (List Char)) (target : List Char) (maxDist : Nat) :
    BKNode → List Nat
  | .node i ch =>
    (if edit_distance_ target (nameOf names i) ≤ maxDist then [i] else []) ++
      ((bandInts (edit_distance_ target (nameOf names i)) maxDist).filterMap
        (findChild ch)).attach.flatMap
        (fun c => queryRec names target maxDist c.1)
termination_by t => sizeOf t
decreasing_by
  obtain ⟨w, hw, hfc⟩ := List.mem_filterMap.mp c.2
  have h1 := sizeOf_lt_of_findChild hfc
  simp only [BKNode.node.sizeOf_spec]
  omega

/-- `BKTree::query`: start the recursive descent at the root (`query_rec`
returns immediately on a NULL node). -/
def bkQuery (names : List (List Char)) (root : Option BKNode)
    (target : List Char) (maxDist : Nat) : List Nat :=
  match root with
  | none => []
  | some r => queryRec names target maxDist r

/-- `BKTree::insert` including the NULL-root case: the first inserted entry
becomes the root. -/
def bkInsertOpt (names : List (List Char)) (t : Option BKNode) (j : Nat) :
    Option BKNode :=
  match t with
  | none => some (.node j [])
  | some r => some (bkInsert names r j)

/-- The index built in `main`: `for (i = 0; i < apps.size(); ++i) tree.insert(i)`. -/
def bkBuild (names : List (List Char)) : Option BKNode :=
  (List.range names.length).foldl (bkInsertOpt names) none

/-- Membership of an entry index in a BK-tree. -/
inductive BKMem : Nat → BKNode → Prop
  | here (i : Nat) (ch : List (Nat × BKNode)) : BKMem i (.node i ch)
  | child {x i : Nat} {ch : List (Nat × BKNode)} {w : Nat} {c : BKNode}
      (hc : (w, c) ∈ ch) (h : BKMem x c) : BKMem x (.node i ch)

/-- Structural invariant of trees produced by `insert`: child keys are
distinct (an `unordered_map` has unique keys), and every entry in the
subtree under edge `w` of a node is at edit distance exactly `w` from that
node's entry. -/
inductive BKWF (names : List (List Char)) : BKNode → Prop
  | node {i : Nat} {ch : List (Nat × BKNode)}
      (hkeys : (ch.map Prod.fst).Nodup)
      (hsub : ∀ w c, (w, c) ∈ ch → BKWF names c)
      (hdist : ∀ w c, (w, c) ∈ ch → ∀ x, BKMem x c →
        edit_distance_ (nameOf names x) (nameOf names i) = w) :
      BKWF names (.node i ch)

theorem bkMem_leaf {x j : Nat} : BKMem x (.node j []) ↔ x = j := by
  constructor
  · intro h
    cases h with
    | here => rfl
    | child hc h => simp at hc
  · intro h
    subst h
    exact BKMem.here _ _

theorem findChild_mem {ch : List (Nat × BKNode)} {w : Int} {c : BKNode}
    (h : findChild ch w = some c) : ∃ k : Nat, (k, c) ∈ ch ∧ (k : Int) = w := by
  rw [findChild] at h
  split at h
  · simp at h
  · rename_i hneg
    obtain ⟨p, hp, hpc⟩ := Option.map_eq_some'.mp h
    have hm := List.mem_of_find?_eq_some hp
    have hkey := List.find?_some hp
    cases p with
    | mk k c0 =>
      simp only [beq_iff_eq] at hkey
      simp only at hpc
      subst hpc
      refine ⟨k, hm, ?_⟩
      omega

theorem findChild_none {ch : List (Nat × BKNode)} {w : Nat} {c : BKNode}
    (h : findChild ch (w : Int) = none) : (w, c) ∉ ch := by
  intro hm
  rw [findChild, if_neg (by omega)] at h
  rw [Option.map_eq_none'] at h
  have := List.find?_eq_none.mp h (w, c) hm
  simp at this

theorem findChild_of_mem_nodup {ch : List (Nat × BKNode)} {w : Nat} {c : BKNode}
    (hnd : (ch.map Prod.fst).Nodup) (hm : (w, c) ∈ ch) :
    findChild ch (w : Int) = some c := by
  rw [findChild, if_neg (by omega)]
  have hfind : ch.find? (fun p => p.1 == (w : Int).toNat) = some (w, c) := by
    induction ch with
    | nil => simp at hm
    | cons p tail ih =>
      cases p with
      | mk k c0 =>
        rcases List.mem_cons.mp hm with heq | htail
        · injection heq with h1 h2
          subst h1
          subst h2
          rw [List.find?_cons_of_pos _ (by simp)]
        · have hk : k ≠ w := by
            intro hkw
            subst hkw
            exact (List.nodup_cons.mp hnd).1
              (List.mem_map.mpr ⟨(k, c), htail, rfl⟩)
          rw [List.find?_cons_of_neg _ (by simpa using hk)]
          exact ih (List.nodup_cons.mp hnd).2 htail
  rw [hfind]
  rfl

theorem replaceChild_keys (ch : List (Nat × BKNode)) (d : Nat) (c' : BKNode) :
    (replaceChild ch d c').map Prod.fst = ch.map Prod.fst := by
  rw [replaceChild, List.map_map]
  apply List.map_congr_left
  intro p hp
  by_cases h : p.1 = d <;> simp [h]

theorem mem_replaceChild {ch : List (Nat × BKNode)} {d w : Nat} {c' c : BKNode}
    (hm : (w, c) ∈ replaceChild ch d c') :
    (w = d ∧ c = c') ∨ ((w, c) ∈ ch ∧ w ≠ d) := by
  rw [replaceChild] at hm
  obtain ⟨p, hp, heq⟩ := List.mem_map.mp hm
  by_cases h : p.1 = d
  · rw [if_pos h] at heq
    injection heq with h1 h2
    exact Or.inl ⟨h1.symm, h2.symm⟩
  · rw [if_neg h] at heq
    right
    subst heq
    exact ⟨hp, h⟩

theorem replaceChild_mem_of_mem {ch : List (Nat × BKNode)} {w : Nat} {c : BKNode}
    (d : Nat) (c' : BKNode) (hm : (w, c) ∈ ch) (hne : w ≠ d) :
    (w, c) ∈ replaceChild ch d c' := by
  rw [replaceChild]
  exact List.mem_map.mpr ⟨(w, c), hm, by simp [hne]⟩

theorem replaceChild_mem_new {ch : List (Nat × BKNode)} {d : Nat} {c0 : BKNode}
    (c' : BKNode) (hm : (d, c0) ∈ ch) : (d, c') ∈ replaceChild ch d c' := by
  rw [replaceChild]
  exact List.mem_map.mpr ⟨(d, c0), hm, by simp⟩

theorem keys_nodup_val_eq {ch : List (Nat × BKNode)}
    (hnd : (ch.map Prod.fst).Nodup) {k : Nat} {a b : BKNode}
    (ha : (k, a) ∈ ch) (hb : (k, b) ∈ ch) : a = b := by
  induction ch with
  | nil => simp at ha
  | cons p tail ih =>
    cases p with
    | mk k0 c0 =>
      have hnotin := (List.nodup_cons.mp hnd).1
      rcases List.mem_cons.mp ha with ha0 | ha1 <;>
        rcases List.mem_cons.mp hb with hb0 | hb1
      · exact (Prod.ext_iff.mp (ha0.trans hb0.symm)).2
      · injection ha0 with h1 h2
        exact absurd (List.mem_map.mpr ⟨(k, b), hb1, by simp [h1]⟩) (h1 ▸ hnotin)
      · injection hb0 with h1 h2
        exact absurd (List.mem_map.mpr ⟨(k, a), ha1, by simp [h1]⟩) (h1 ▸ hnotin)
      · exact ih (List.nodup_cons.mp hnd).2 ha1 hb1

theorem bkWF_leaf (names : List (List Char)) (j : Nat) :
    BKWF names (.node j []) :=
  BKWF.node (by simp) (by simp) (by simp)

/-- Inserting `j` adds exactly `j` to the set of entries stored in the tree. -/
theorem bkInsert_mem (names : List (List Char)) :
    ∀ (n : Nat) (t : BKNode), sizeOf t ≤ n → BKWF names t → ∀ (j x : Nat),
      (BKMem x (bkInsert names t j) ↔ BKMem x t ∨ x = j) := by
  intro n
  induction n with
  | zero =>
    intro t hle
    cases t with
    | node i ch =>
      simp only [BKNode.node.sizeOf_spec] at hle
      omega
  | succ n ih =>
    intro t hle hwf j x
    cases t with
    | node i ch =>
      cases hwf with
      | node hkeys hsub hdist =>
        rw [bkInsert]
        split
        · rename_i hfc
          constructor
          · intro hm
            cases hm with
            | here => exact Or.inl (BKMem.here _ _)
            | child hc h =>
              rcases List.mem_cons.mp hc with heq | htail
              · injection heq with h1 h2
                subst h2
                exact Or.inr (bkMem_leaf.mp h)
              · exact Or.inl (BKMem.child htail h)
          · intro hm
            rcases hm with hm | hm
            · cases hm with
              | here => exact BKMem.here _ _
              | child hc h => exact BKMem.child (List.mem_cons_of_mem _ hc) h
            · subst hm
              exact BKMem.child (List.mem_cons_self _ _) (bkMem_leaf.mpr rfl)
        · rename_i c hfc
          obtain ⟨k, hkch, hkd⟩ := findChild_mem hfc
          have hkdn : k = edit_distance_ (nameOf names j) (nameOf names i) := by omega
          subst hkdn
          have hszc : sizeOf c ≤ n := by
            have h1 := sizeOf_lt_of_findChild hfc
            simp only [BKNode.node.sizeOf_spec] at hle
            omega
          have hwfc := hsub _ c hkch
          have hih := ih c hszc hwfc j x
          constructor
          · intro hm
            cases hm with
            | here => exact Or.inl (BKMem.here _ _)
            | child hc h =>
              rcases mem_replaceChild hc with ⟨hw, hcnew⟩ | ⟨hold, hne⟩
              · subst hcnew
                rcases hih.mp h with h1 | h1
                · exact Or.inl (BKMem.child hkch h1)
                · exact Or.inr h1
              · exact Or.inl (BKMem.child hold h)
          · intro hm
            rcases hm with hm | hm
            · cases hm with
              | here => exact BKMem.here _ _
              | child hc h =>
                rename_i w c2
                by_cases hw : w = edit_distance_ (nameOf names j) (nameOf names i)
                · subst hw
                  have hc2 : c2 = c := keys_nodup_val_eq hkeys hc hkch
                  subst hc2
                  exact BKMem.child (replaceChild_mem_new _ hkch)
                    (hih.mpr (Or.inl h))
                · exact BKMem.child (replaceChild_mem_of_mem _ _ hc hw) h
            · subst hm
              exact BKMem.child (replaceChild_mem_new _ hkch)
                (hih.mpr (Or.inr rfl))

/-- `insert` preserves the BK-tree invariant. -/
theorem bkInsert_wf (names : List (List Char)) :
    ∀ (n : Nat) (t : BKNode), sizeOf t ≤ n → BKWF names t → ∀ j : Nat,
      BKWF names (bkInsert names t j) := by
  intro n
  induction n with
  | zero =>
    intro t hle
    cases t with
    | node i ch =>
      simp only [BKNode.node.sizeOf_spec] at hle
      omega
  | succ n ih =>
    intro t hle hwf j
    cases t with
    | node i ch =>
      cases hwf with
      | node hkeys hsub hdist =>
        rw [bkInsert]
        split
        · rename_i hfc
          refine BKWF.node ?_ ?_ ?_
          · rw [List.map_cons]
            refine List.nodup_cons.mpr ⟨?_, hkeys⟩
            intro hmem
            obtain ⟨p, hp, hp1⟩ := List.mem_map.mp hmem
            cases p with
            | mk k c0 =>
              simp only at hp1
              subst hp1
              exact findChild_none hfc hp
          · intro w c hm
            rcases List.mem_cons.mp hm with heq | htail
            · injection heq with h1 h2
              subst h2
              exact bkWF_leaf names j
            · exact hsub w c htail
          · intro w c hm x hx
            rcases List.mem_cons.mp hm with heq | htail
            · injection heq with h1 h2
              subst h1
              subst h2
              rw [bkMem_leaf.mp hx]
            · exact hdist w c htail x hx
        · rename_i c hfc
          obtain ⟨k, hkch, hkd⟩ := findChild_mem hfc
          have hkdn : k = edit_distance_ (nameOf names j) (nameOf names i) := by omega
          subst hkdn
          have hszc : sizeOf c ≤ n := by
            have h1 := sizeOf_lt_of_findChild hfc
            simp only [BKNode.node.sizeOf_spec] at hle
            omega
          have hwfc := hsub _ c hkch
          refine BKWF.node ?_ ?_ ?_
          · rw [replaceChild_keys]
            exact hkeys
          · intro w c2 hm
            rcases mem_replaceChild hm with ⟨hw, hcnew⟩ | ⟨hold, hne⟩
            · subst hcnew
              exact ih c hszc hwfc j
            · exact hsub w c2 hold
          · intro w c2 hm x hx
            rcases mem_replaceChild hm with ⟨hw, hcnew⟩ | ⟨hold, hne⟩
            · subst hcnew
              subst hw
              rcases (bkInsert_mem names (sizeOf c) c (le_refl _) hwfc j x).mp hx
                  with h1 | h1
              · exact hdist _ c hkch x h1
              · subst h1
                rfl
            · exact hdist w c2 hold x hx

/-- Every index returned by `query_rec` is stored in the tree and within
`max_dist` of the target. -/
theorem queryRec_sound (names : List (List Char)) (target : List Char)
    (maxDist : Nat) :
    ∀ (n : Nat) (t : BKNode), sizeOf t ≤ n → ∀ x,
      x ∈ queryRec names target maxDist t →
      BKMem x t ∧ edit_distance_ target (nameOf names x) ≤ maxDist := by
  intro n
  induction n with
  | zero =>
    intro t hle
    cases t with
    | node i ch =>
      simp only [BKNode.node.sizeOf_spec] at hle
      omega
  | succ n ih =>
    intro t hle x hx
    cases t with
    | node i ch =>
      rw [queryRec] at hx
      rcases List.mem_append.mp hx with h | h
      · split at h
        · rename_i hcond
          rcases List.mem_singleton.mp h with rfl
          exact ⟨BKMem.here _ _, hcond⟩
        · simp at h
      · obtain ⟨ce, hce, hq⟩ := List.mem_flatMap.mp h
        obtain ⟨c, hcmem⟩ := ce
        obtain ⟨w, hwband, hfc⟩ := List.mem_filterMap.mp hcmem
        have hszc : sizeOf c ≤ n := by
          have h1 := sizeOf_lt_of_findChild hfc
          simp only [BKNode.node.sizeOf_spec] at hle
          omega
        obtain ⟨hm, hd⟩ := ih c hszc x hq
        obtain ⟨k, hkch, hkw⟩ := findChild_mem hfc
        exact ⟨BKMem.child hkch hm, hd⟩

theorem mem_bandInts {d maxDist w : Nat} (h1 : d ≤ maxDist + w)
    (h2 : w ≤ d + maxDist) : (w : Int) ∈ bandInts d maxDist := by
  rw [bandInts, List.mem_map]
  refine ⟨((w : Int) + maxDist - d).toNat, ?_, ?_⟩
  · rw [List.mem_range]
    omega
  · omega

/-- Every stored index within `max_dist` of the target is returned by
`query_rec`: the band `[dist - max_dist, dist + max_dist]` always covers
the edge leading to it, by the triangle inequality. -/
theorem queryRec_complete (names : List (List Char)) (target : List Char)
    (maxDist : Nat) {x : Nat} {t : BKNode} (hmem : BKMem x t) :
    BKWF names t → edit_distance_ target (nameOf names x) ≤ maxDist →
    x ∈ queryRec names target maxDist t := by
  induction hmem with
  | here i =>
    intro hwf hd
    rw [queryRec]
    refine List.mem_append.mpr (Or.inl ?_)
    rw [if_pos hd]
    simp
  | child hc h ih =>
    rename_i i ch w c
    intro hwf hd
    cases hwf with
    | node hkeys hsub hdist =>
      have hwfc := hsub w c hc
      have hq := ih hwfc hd
      have hdw := hdist w c hc x h
      have hb1 : edit_distance_ target (nameOf names i) ≤ maxDist + w := by
        have ht := edit_distance_triangle target (nameOf names x) (nameOf names i)
        omega
      have hb2 : w ≤ edit_distance_ target (nameOf names i) + maxDist := by
        have ht := edit_distance_triangle (nameOf names x) target (nameOf names i)
        have hcm := edit_distance_comm (nameOf names x) target
        omega
      have hband := mem_bandInts hb1 hb2
      have hfc := findChild_of_mem_nodup hkeys hc
      have hcf : c ∈ (bandInts (edit_distance_ target (nameOf names i)) maxDist).filterMap
          (findChild ch) :=
        List.mem_filterMap.mpr ⟨(w : Int), hband, hfc⟩
      rw [queryRec]
      refine List.mem_append.mpr (Or.inr ?_)
      exact List.mem_flatMap.mpr ⟨⟨c, hcf⟩, List.mem_attach _ _, hq⟩

/-- Building the index by inserting `0, 1, ..., N-1` (the loop in `main`)
yields a well-formed tree storing exactly those indices. -/
theorem bkBuild_fold (names : List (List Char)) :
    ∀ (js : List Nat) (t0 : Option BKNode),
      (∀ r, t0 = some r → BKWF names r) →
      (∀ r, js.foldl (bkInsertOpt names) t0 = some r → BKWF names r) ∧
      (∀ x, (∃ r, js.foldl (bkInsertOpt names) t0 = some r ∧ BKMem x r) ↔
        (∃ r, t0 = some r ∧ BKMem x r) ∨ x ∈ js) := by
  intro js
  induction js with
  | nil =>
    intro t0 h0
    refine ⟨h0, ?_⟩
    intro x
    simp
  | cons j js ih =>
    intro t0 h0
    have hstep_wf : ∀ r, bkInsertOpt names t0 j = some r → BKWF names r := by
      intro r hr
      cases t0 with
      | none =>
        rw [bkInsertOpt] at hr
        injection hr with h
        subst h
        exact bkWF_leaf names j
      | some r0 =>
        rw [bkInsertOpt] at hr
        injection hr with h
        subst h
        exact bkInsert_wf names (sizeOf r0) r0 (le_refl _) (h0 r0 rfl) j
    have hstep_mem : ∀ x,
        (∃ r, bkInsertOpt names t0 j = some r ∧ BKMem x r) ↔
        (∃ r, t0 = some r ∧ BKMem x r) ∨ x = j := by
      intro x
      cases t0 with
      | none =>
        rw [bkInsertOpt]
        constructor
        · rintro ⟨r, hr, hm⟩
          injection hr with h
          subst h
          exact Or.inr (bkMem_leaf.mp hm)
        · rintro (⟨r, hr, hm⟩ | hx)
          · cases hr
          · exact ⟨_, rfl, bkMem_leaf.mpr hx⟩
      | some r0 =>
        rw [bkInsertOpt]
        have hiff := bkInsert_mem names (sizeOf r0) r0 (le_refl _) (h0 r0 rfl) j x
        constructor
        · rintro ⟨r, hr, hm⟩
          injection hr with h
          subst h
          rcases hiff.mp hm with h1 | h1
          · exact Or.inl ⟨r0, rfl, h1⟩
          · exact Or.inr h1
        · rintro (⟨r, hr, hm⟩ | hx)
          · injection hr with h
            subst h
            exact ⟨_, rfl, hiff.mpr (Or.inl hm)⟩
          · exact ⟨_, rfl, hiff.mpr (Or.inr hx)⟩
    obtain ⟨hwf, hmem⟩ := ih (bkInsertOpt names t0 j) hstep_wf
    refine ⟨?_, ?_⟩
    · intro r hr
      rw [List.foldl_cons] at hr
      exact hwf r hr
    · intro x
      rw [List.foldl_cons, hmem x, hstep_mem x, List.mem_cons]
      exact or_assoc

/-- Characterization of a query on the built index. -/
theorem bkQuery_built_mem (names : List (List Char))
    (target : List Char) (maxDist : Nat) (x : Nat) :
    x ∈ bkQuery names (bkBuild names) target maxDist ↔
      x < names.length ∧ edit_distance_ target (nameOf names x) ≤ maxDist := by
  obtain ⟨hwf, hmem⟩ := bkBuild_fold names (List.range names.length) none
    (by intro r hr; cases hr)
  rw [bkBuild]
  cases hroot : (List.range names.length).foldl (bkInsertOpt names) none with
  | none =>
    rw [bkQuery]
    constructor
    · intro hx
      simp at hx
    · rintro ⟨hx, hd⟩
      obtain ⟨r, hr, hm⟩ := (hmem x).mpr (Or.inr (List.mem_range.mpr hx))
      rw [hroot] at hr
      cases hr
  | some r =>
    have hwfr := hwf r hroot
    rw [bkQuery]
    constructor
    · intro hx
      obtain ⟨hm, hd⟩ :=
        queryRec_sound names target maxDist (sizeOf r) r (le_refl _) x hx
      have hx' := (hmem x).mp ⟨r, hroot, hm⟩
      rcases hx' with ⟨r0, hr0, _⟩ | hx'
      · cases hr0
      · exact ⟨List.mem_range.mp hx', hd⟩
    · rintro ⟨hx, hd⟩
      obtain ⟨r0, hr0, hm⟩ := (hmem x).mpr (Or.inr (List.mem_range.mpr hx))
      rw [hroot] at hr0
      injection hr0 with h
      subst h
      exact queryRec_complete names target maxDist hm hwfr hd

/-- C1: BK-tree query completeness.  For the index built by inserting
entries `0, 1, ..., N-1` one at a time (as `main` does) and any
`(target, max_distance)`, the set of indices returned by `query` is
exactly the set of stored indices whose name is within edit distance
`max_distance` of the target (stated as a membership equivalence, so the
order of the returned list is irrelevant). -/
theorem C1_bktree_query_completeness (names : List (List Char))
    (target : List Char) (maxDist : Nat) (x : Nat) :
    x ∈ bkQuery names (bkBuild names) target maxDist ↔
      x < names.length ∧ edit_distance_ target (nameOf names x) ≤ maxDist :=
  bkQuery_built_mem names target maxDist x

/-- C8: metric identities of the implemented Levenshtein distance: it is
symmetric, every string is at distance 0 from itself, and the distance
from the empty string is the length of the other operand. -/
theorem C8_edit_distance_metric (a b s : List Char) :
    edit_distance_ a b = edit_distance_ b a ∧
    edit_distance_ a a = 0 ∧
    edit_distance_ [] s = s.length :=
  ⟨edit_distance_comm a b, edit_distance_self a, edit_distance_nil s⟩

/-! ### The prompt edit buffer (`prompt`/`pcursor`, src/rapp.cpp:478-663)

State is the pair `(prompt, pcursor)`.  `pcursor` is a `size_t`; the only
operation that can underflow it is the `pcursor--` in `_pcursor::pop_back`,
modelled as an explicit wrap mod 2^64.  `std::string::erase(pos, count)`
clamps `count` to the string end and is modelled with `take`/`drop`; for
`pos > size()` it throws (the process aborts) - those states are exactly
the ones excluded by the guards below and never arise under the invariant.
`isspace` is C `isspace` in the POSIX locale. -/

structure EBuf where
  text : List Char
  cursor : Nat
deriving DecidableEq, Repr

def isspace (c : Char) : Bool :=
  c = ' ' || (9 ≤ c.toNat && c.toNat ≤ 13)

/-- `size_t` decrement (`pcursor--`). -/
def wrapDec (n : Nat) : Nat :=
  if n = 0 then 2 ^ 64 - 1 else n - 1

/-- `trim(str, len)` (src/rapp.cpp:467-476): the first pointer walk strips
leading `isspace` characters, the second strips trailing ones. -/
def trimSV (s : List Char) : List Char :=
  (((s.dropWhile isspace).reverse.dropWhile isspace).reverse)

/-- The scan of `delete_word_left`:
`while (r > 1 && !isspace(prompt[--r]));` - decrement, then test; stop on
a whitespace character (at the decremented position) or at `r ≤ 1`. -/
def dwlScan (t : List Char) (r : Nat) : Nat :=
  if r > 1 then
    (if isspace (t.getD (r - 1) ' ') then r - 1 else dwlScan t (r - 1))
  else r
termination_by r

/-- `while (l < n && isspace(prompt[l++]));` - test, then post-increment;
on exit `l` is one past the first non-space position (or `n`). -/
def scanSpaceFwd (t : List Char) (l n : Nat) : Nat :=
  if l < n then
    (if isspace (t.getD l ' ') then scanSpaceFwd t (l + 1) n else l + 1)
  else l
termination_by n - l

/-- `while (word_end < n && !isspace(prompt[word_end++]));`. -/
def scanWordFwd (t : List Char) (l n : Nat) : Nat :=
  if l < n then
    (if isspace (t.getD l ' ') then l + 1 else scanWordFwd t (l + 1) n)
  else l
termination_by n - l

/-- `while (r > 0 && isspace(prompt[--r]));` (first loop of `word_left`). -/
def scanSpaceBwd (t : List Char) (r : Nat) : Nat :=
  if r > 0 then
    (if isspace (t.getD (r - 1) ' ') then scanSpaceBwd t (r - 1) else r - 1)
  else r
termination_by r

/-- `while (r > 0 && !isspace(prompt[--r]));` (second loop of `word_left`). -/
def scanWordBwd (t : List Char) (r : Nat) : Nat :=
  if r > 0 then
    (if isspace (t.getD (r - 1) ' ') then r - 1 else scanWordBwd t (r - 1))
  else r
termination_by r

/-- Edit-buffer operations: one iteration of the `GetCharPressed` loop
(`typed c`, where `c` is the value of the `char ch` with `ch > 0`), the
`_pcursor` actions, and the cursor motions.  `up`/`down` move the list
cursor, not the edit cursor, so they leave the buffer unchanged. -/
inductive EOp where
  | typed (c : Nat)
  | popBack
  | deleteChar
  | deleteLine
  | deleteWholeLine
  | deleteWordLeft
  | deleteWordRight
  | paste (clip : List Char)
  | toStart
  | toEnd
  | left
  | right
  | wordLeft
  | wordRight
  | up
  | down
deriving DecidableEq, Repr

/-- One step of the edit buffer, mirroring src/rapp.cpp.  Note the two
spec-relevant quirks taken verbatim from the code: the `GetCharPressed`
loop increments `pcursor` whether or not the character was inserted
(handle_keys, lines 653-663), and `paste` advances the cursor by the
untrimmed clipboard length `n` while inserting the trimmed text
(`_pcursor::paste`, lines 480-493). -/
def estep (b : EBuf) : EOp → EBuf
  | .typed c =>
    if 32 ≤ c ∧ c ≤ 125 then
      ⟨b.text.take b.cursor ++ [Char.ofNat c] ++ b.text.drop b.cursor, b.cursor + 1⟩
    else
      ⟨b.text, b.cursor + 1⟩
  | .popBack =>
    if b.text = [] then b
    else if b.cursor = b.text.length then
      ⟨b.text.dropLast, wrapDec b.cursor⟩
    else
      ⟨b.text.eraseIdx b.cursor, wrapDec b.cursor⟩
  | .deleteChar =>
    if b.cursor ≠ b.text.length then ⟨b.text.eraseIdx b.cursor, b.cursor⟩ else b
  | .deleteLine =>
    if b.cursor ≠ b.text.length then ⟨b.text.take b.cursor, b.cursor⟩ else b
  | .deleteWholeLine => ⟨[], 0⟩
  | .deleteWordLeft =>
    if b.cursor = 0 then b
    else
      ⟨b.text.take (dwlScan b.text b.cursor) ++
        b.text.drop (dwlScan b.text b.cursor + b.cursor), dwlScan b.text b.cursor⟩
  | .deleteWordRight =>
    if b.text.length = 0 then b
    else
      if scanSpaceFwd b.text b.cursor b.text.length < b.text.length then
        ⟨b.text.take b.cursor ++
          b.text.drop (b.cursor +
            (scanWordFwd b.text (scanSpaceFwd b.text b.cursor b.text.length)
              b.text.length - b.cursor)), b.cursor⟩
      else b
  | .paste clip =>
    ⟨b.text.take b.cursor ++ trimSV clip ++ b.text.drop b.cursor,
      b.cursor + clip.length⟩
  | .toStart => ⟨b.text, 0⟩
  | .toEnd => ⟨b.text, b.text.length⟩
  | .left => if b.cursor > 0 then ⟨b.text, b.cursor - 1⟩ else b
  | .right => if b.cursor < b.text.length then ⟨b.text, b.cursor + 1⟩ else b
  | .wordLeft =>
    ⟨b.text, min b.text.length
      (if scanWordBwd b.text (scanSpaceBwd b.text b.cursor) > 0 then
        scanWordBwd b.text (scanSpaceBwd b.text b.cursor) + 1
      else scanWordBwd b.text (scanSpaceBwd b.text b.cursor))⟩
  | .wordRight =>
    ⟨b.text, scanWordFwd b.text (scanSpaceFwd b.text b.cursor b.text.length)
      b.text.length⟩
  | .up => b
  | .down => b

/-- The conditions under which a step keeps the cursor in bounds (the
three violations are exhibited separately): the typed character is
actually inserted, `pop_back` is not invoked at cursor 0 on non-empty
text, and the pasted clipboard carries no surrounding whitespace. -/
def eguard (b : EBuf) : EOp → Bool
  | .typed c => decide (32 ≤ c ∧ c ≤ 125)
  | .popBack => b.cursor != 0 || b.text.isEmpty
  | .paste clip => trimSV clip == clip
  | _ => true

/-- Run a sequence of operations from the initial empty state. -/
def erun (ops : List EOp) : EBuf :=
  ops.foldl estep ⟨[], 0⟩

/-- All steps of the trace satisfy their guards. -/
def eguardedAll : EBuf → List EOp → Bool
  | _, [] => true
  | b, op :: ops => eguard b op && eguardedAll (estep b op) ops

theorem dwlScan_le (t : List Char) : ∀ r, dwlScan t r ≤ r := by
  intro r
  induction r using Nat.strong_induction_on with
  | _ r ih =>
    rw [dwlScan]
    split
    · split
      · omega
      · have h := ih (r - 1) (by omega)
        omega
    · omega

theorem scanSpaceFwd_le (t : List Char) :
    ∀ (fuel l n : Nat), n - l ≤ fuel → l ≤ n → scanSpaceFwd t l n ≤ n := by
  intro fuel
  induction fuel with
  | zero =>
    intro l n hf hl
    rw [scanSpaceFwd]
    split
    · omega
    · omega
  | succ fuel ih =>
    intro l n hf hl
    rw [scanSpaceFwd]
    split
    · split
      · exact ih (l + 1) n (by omega) (by omega)
      · omega
    · omega

theorem scanWordFwd_le (t : List Char) :
    ∀ (fuel l n : Nat), n - l ≤ fuel → l ≤ n → scanWordFwd t l n ≤ n := by
  intro fuel
  induction fuel with
  | zero =>
    intro l n hf hl
    rw [scanWordFwd]
    split
    · omega
    · omega
  | succ fuel ih =>
    intro l n hf hl
    rw [scanWordFwd]
    split
    · split
      · omega
      · exact ih (l + 1) n (by omega) (by omega)
    · omega

/-- One guarded step preserves the cursor bound. -/
theorem estep_inv (b : EBuf) (op : EOp) (hinv : b.cursor ≤ b.text.length)
    (hg : eguard b op = true) :
    (estep b op).cursor ≤ (estep b op).text.length := by
  cases op with
  | typed c =>
    rw [eguard, decide_eq_true_eq] at hg
    rw [estep, if_pos hg]
    simp only [List.length_append, List.length_take, List.length_drop,
      List.length_cons, List.length_nil]
    omega
  | popBack =>
    rw [eguard] at hg
    rw [estep]
    split
    · exact hinv
    · rename_i hne
      have hc0 : b.cursor ≠ 0 := by
        rcases Bool.or_eq_true_iff.mp hg with h | h
        · simpa using h
        · exact absurd (List.isEmpty_iff.mp h) hne
      have hlen0 : b.text.length ≠ 0 := by
        intro h
        exact hne (List.eq_nil_of_length_eq_zero h)
      split
      · simp only [List.length_dropLast, wrapDec, if_neg hc0]
        omega
      · rename_i hcl
        simp only [wrapDec, if_neg hc0]
        have hE := List.length_eraseIdx_add_one
          (show b.cursor < b.text.length by omega)
        omega
  | deleteChar =>
    rw [estep]
    split
    · rename_i hne
      have hlt : b.cursor < b.text.length := by omega
      have hE := List.length_eraseIdx_add_one hlt
      simp only
      omega
    · exact hinv
  | deleteLine =>
    rw [estep]
    split
    · simp only [List.length_take]
      omega
    · exact hinv
  | deleteWholeLine =>
    rw [estep]
    simp
  | deleteWordLeft =>
    rw [estep]
    split
    · exact hinv
    · have hr := dwlScan_le b.text b.cursor
      simp only [List.length_append, List.length_take, List.length_drop]
      omega
  | deleteWordRight =>
    rw [estep]
    split
    · exact hinv
    · split
      · simp only [List.length_append, List.length_take, List.length_drop]
        omega
      · exact hinv
  | paste clip =>
    rw [eguard, beq_iff_eq] at hg
    rw [estep]
    simp only [List.length_append, List.length_take, List.length_drop]
    rw [hg]
    omega
  | toStart =>
    rw [estep]
    simp
  | toEnd =>
    rw [estep]
  | left =>
    rw [estep]
    split
    · simp only
      omega
    · exact hinv
  | right =>
    rw [estep]
    split
    · rename_i h
      simpa using h
    · exact hinv
  | wordLeft =>
    rw [estep]
    simp only
    omega
  | wordRight =>
    rw [estep]
    simp only
    have h1 := scanSpaceFwd_le b.text (b.text.length - b.cursor) b.cursor
      b.text.length (by omega) hinv
    exact scanWordFwd_le b.text
      (b.text.length - scanSpaceFwd b.text b.cursor b.text.length)
      (scanSpaceFwd b.text b.cursor b.text.length) b.text.length (by omega) h1
  | up => exact hinv
  | down => exact hinv

theorem erun_guarded_inv :
    ∀ (ops : List EOp) (b : EBuf), b.cursor ≤ b.text.length →
      eguardedAll b ops = true → ∀ k : Nat,
      ((ops.take k).foldl estep b).cursor ≤ ((ops.take k).foldl estep b).text.length := by
  intro ops
  induction ops with
  | nil =>
    intro b hinv hg k
    simp [hinv]
  | cons op ops ih =>
    intro b hinv hg k
    rw [eguardedAll, Bool.and_eq_true] at hg
    cases k with
    | zero => simpa using hinv
    | succ k =>
      rw [List.take_succ_cons, List.foldl_cons]
      exact ih (estep b op) (estep_inv b op hinv hg.1) hg.2 k

/-- C3 counterexample: typing the printable-ASCII character `A` (code 65)
inserts `A` itself, not its lowercased form `a`: the `GetCharPressed` loop
of `handle_keys` performs no lowercasing (only the app names are lowercased
at parse time, src/rapp.cpp:748). -/
theorem C3_counterexample_no_lowercasing :
    (estep ⟨[], 0⟩ (.typed 65)).text = ['A'] ∧
    (estep ⟨[], 0⟩ (.typed 65)).text ≠ ['a'] ∧
    (estep ⟨[], 0⟩ (.typed 65)).cursor = 1 := by
  refine ⟨by decide, by decide, by decide⟩

/-- C3 amended: for a typed character `c` with `32 ≤ c ≤ 125` (the code's
range check, which excludes the printable `~`, code 126), `c` itself - not
its lowercased form - is inserted at the cursor, the text grows by one and
the cursor advances by exactly 1; the surrounding text is untouched. -/
theorem C3_amended_insert_char (b : EBuf) (c : Nat) (h1 : 32 ≤ c)
    (h2 : c ≤ 125) (hinv : b.cursor ≤ b.text.length) :
    (estep b (.typed c)).text.length = b.text.length + 1 ∧
    (estep b (.typed c)).cursor = b.cursor + 1 ∧
    (estep b (.typed c)).text.getD b.cursor ' ' = Char.ofNat c ∧
    (estep b (.typed c)).text.take b.cursor = b.text.take b.cursor ∧
    (estep b (.typed c)).text.drop (b.cursor + 1) = b.text.drop b.cursor := by
  have hTL : (b.text.take b.cursor).length = b.cursor := by
    simp only [List.length_take]
    omega
  rw [estep, if_pos ⟨h1, h2⟩]
  dsimp only
  refine ⟨?_, rfl, ?_, ?_, ?_⟩
  · simp only [List.length_append, List.length_take, List.length_drop,
      List.length_cons, List.length_nil]
    omega
  · rw [List.append_assoc, List.getD_append_right _ _ _ _ (by omega), hTL]
    simp
  · rw [List.append_assoc]
    exact List.take_left' hTL
  · have hTL1 : (b.text.take b.cursor ++ [Char.ofNat c]).length = b.cursor + 1 := by
      simp only [List.length_append, List.length_cons, List.length_nil, hTL]
    exact List.drop_left' hTL1

theorem C3_amended_insert_char_witness :
    (estep ⟨['x'], 1⟩ (.typed 97)).text.length = 2 ∧
    (estep ⟨['x'], 1⟩ (.typed 97)).cursor = 2 ∧
    (estep ⟨['x'], 1⟩ (.typed 97)).text.getD 1 ' ' = Char.ofNat 97 := by
  have h := C3_amended_insert_char ⟨['x'], 1⟩ 97 (by decide) (by decide) (by decide)
  exact ⟨h.1, h.2.1, h.2.2.1⟩

/-- C4 counterexample: from the initial empty state, type `a`, move to the
line start (C-a) and press backspace.  `_pcursor::pop_back` erases the
first character and executes `pcursor--` on `pcursor == 0`, and the
`size_t` cursor wraps to 2^64 - 1, far outside `[0, len(text)]`. -/
theorem C4_counterexample_cursor_underflow :
    erun [.typed 97, .toStart, .popBack] = ⟨[], 2 ^ 64 - 1⟩ ∧
    ¬((erun [.typed 97, .toStart, .popBack]).cursor ≤
      (erun [.typed 97, .toStart, .popBack]).text.length) := by
  refine ⟨by decide, by decide⟩

/-- C4 amended: the cursor invariant `cursor ∈ [0, len(text)]` holds after
every step of every operation sequence from the initial empty state,
provided each step avoids the three violating cases (each exhibited by a
dedicated counterexample): a typed character outside `[32, 125]` (skipped
but still `pcursor++`), `pop_back` at cursor 0 on non-empty text (`size_t`
underflow), and a paste whose clipboard has surrounding whitespace (cursor
advances by the untrimmed length). -/
theorem C4_amended_cursor_safety (ops : List EOp)
    (h : eguardedAll ⟨[], 0⟩ ops = true) (k : Nat) :
    (erun (ops.take k)).cursor ≤ (erun (ops.take k)).text.length :=
  erun_guarded_inv ops ⟨[], 0⟩ (by simp) h k

theorem C4_amended_cursor_safety_witness :
    eguardedAll ⟨[], 0⟩
      [.typed 104, .typed 105, .left, .popBack, .paste ['x'], .wordLeft,
        .deleteWordRight, .toEnd, .deleteWordLeft] = true ∧
    (erun ([EOp.typed 104, .typed 105, .left, .popBack, .paste ['x'], .wordLeft,
        .deleteWordRight, .toEnd, .deleteWordLeft].take 5)).cursor ≤
      (erun ([EOp.typed 104, .typed 105, .left, .popBack, .paste ['x'], .wordLeft,
        .deleteWordRight, .toEnd, .deleteWordLeft].take 5)).text.length :=
  ⟨by decide,
    C4_amended_cursor_safety
      [.typed 104, .typed 105, .left, .popBack, .paste ['x'], .wordLeft,
        .deleteWordRight, .toEnd, .deleteWordLeft] (by decide) 5⟩

/-- C5 counterexample: pasting the clipboard string consisting of a space
followed by `a` inserts the trimmed text `a` but advances the cursor by
the untrimmed length 2 (`pcursor += n` where `n = clipboard.size()`,
src/rapp.cpp:489), not by the inserted length 1. -/
theorem C5_counterexample_paste_cursor :
    (estep ⟨[], 0⟩ (.paste [' ', 'a'])).text = ['a'] ∧
    trimSV [' ', 'a'] = ['a'] ∧
    (estep ⟨[], 0⟩ (.paste [' ', 'a'])).cursor = 2 ∧
    (estep ⟨[], 0⟩ (.paste [' ', 'a'])).cursor ≠
      0 + (trimSV [' ', 'a']).length := by
  refine ⟨by decide, by decide, by decide, by decide⟩

/-- C5 amended: paste splits the clipboard as
`whitespace ++ trimmed ++ whitespace`, inserts exactly the trimmed middle
at the cursor, and advances the cursor by the length of the whole
(untrimmed) clipboard. -/
theorem C5_amended_paste (b : EBuf) (clip : List Char) :
    (∃ lead trail, clip = lead ++ trimSV clip ++ trail ∧
      (∀ ch ∈ lead, isspace ch = true) ∧
      (∀ ch ∈ trail, isspace ch = true)) ∧
    (estep b (.paste clip)).text =
      b.text.take b.cursor ++ trimSV clip ++ b.text.drop b.cursor ∧
    (estep b (.paste clip)).cursor = b.cursor + clip.length := by
  refine ⟨⟨clip.takeWhile isspace,
    ((clip.dropWhile isspace).reverse.takeWhile isspace).reverse, ?_, ?_, ?_⟩,
    rfl, rfl⟩
  · have h2 : (clip.dropWhile isspace).reverse.takeWhile isspace ++
        (clip.dropWhile isspace).reverse.dropWhile isspace =
        (clip.dropWhile isspace).reverse :=
      List.takeWhile_append_dropWhile isspace _
    have h3 : clip.takeWhile isspace ++ clip.dropWhile isspace = clip :=
      List.takeWhile_append_dropWhile isspace clip
    rw [trimSV, List.append_assoc, ← List.reverse_append, h2,
      List.reverse_reverse, h3]
  · intro ch hch
    exact List.mem_takeWhile_imp hch
  · intro ch hch
    rw [List.mem_reverse] at hch
    exact List.mem_takeWhile_imp hch

/-! ### The query-to-result pipeline of `filter_apps` (src/rapp.cpp:370-406)

Pass 1 collects, in store order, every entry whose name contains the
prompt as a substring (`name.find(prompt) != npos`); pass 2 appends every
BK-tree match (threshold 4) not already seen.  If the rank table is
non-empty the combined list is sorted with `std::sort` and the comparator
`ranks[apps[a].name] > ranks[apps[b].name]`.  `std::sort` guarantees only
that the output is a permutation of the input that is sorted with respect
to the comparator - it is NOT a stable sort - so the sorting step is
modelled by that contract (`SortSpec`), not by a function.
`ranks` is an `unordered_map`; `operator[]` default-inserts 0 for absent
names, so the compared count of an absent name is 0 (`rankOf`). -/

/-- `name.find(prompt) != std::string::npos`: contiguous substring test. -/
def hasSub (needle : List Char) : List Char → Bool
  | [] => needle.isEmpty
  | c :: t => needle.isPrefixOf (c :: t) || hasSub needle t

/-- `ranks[name]` as used by the sort comparator (absent name compares
as 0, matching the default-inserted value). -/
def rankOf (ranks : List (List Char × Nat)) (name : List Char) : Nat :=
  ((ranks.find? (fun p => p.1 == name)).map Prod.snd).getD 0

/-- The comparator passed to `std::sort`. -/
def rankCmp (ranks : List (List Char × Nat)) (names : List (List Char))
    (a b : Nat) : Bool :=
  decide (rankOf ranks (nameOf names a) > rankOf ranks (nameOf names b))

/-- Pass 1: substring matches, in Entry Store order. -/
def substrMatches (names : List (List Char)) (prompt : List Char) : List Nat :=
  (List.range names.length).filter (fun i => hasSub prompt (nameOf names i))

/-- Pass 2: fuzzy matches (threshold 4) not already seen in pass 1. -/
def fuzzyNew (names : List (List Char)) (prompt : List Char) : List Nat :=
  (bkQuery names (bkBuild names) prompt 4).filter
    (fun m => !((substrMatches names prompt).contains m))

def combinedMatches (names : List (List Char)) (prompt : List Char) : List Nat :=
  substrMatches names prompt ++ fuzzyNew names prompt

/-- `is_sorted` with respect to the comparator: for every adjacent pair,
the later element does not compare before the earlier one (the full
post-condition of `std::sort`). -/
def SortedByRank (ranks : List (List Char × Nat)) (names : List (List Char))
    (l : List Nat) : Prop :=
  l.Chain' (fun a b => rankCmp ranks names b a = false)

/-- The contract of `std::sort`: some permutation of the input that is
sorted with respect to the comparator.  Tie order is NOT constrained. -/
def SortSpec (ranks : List (List Char × Nat)) (names : List (List Char))
    (inp out : List Nat) : Prop :=
  inp.Perm out ∧ SortedByRank ranks names out

/-- Post-state of one `filter_apps` call relevant to the claims. -/
structure FState where
  filtered : List Nat
  noMatches : Bool
  lcursor : Nat
deriving DecidableEq, Repr

/-- The relation between a prompt and the admissible post-states of
`filter_apps` (a relation, not a function, because of the `std::sort`
nondeterminism on ties).  Empty prompt: clear the view, `no_matches =
false`; non-empty: combine the two passes, sort iff the rank table is
non-empty, set `no_matches` iff the result is empty.  Both branches reset
`lcursor` to 0 (`lcursor ^= lcursor`). -/
def FilterApplied (names : List (List Char)) (ranks : List (List Char × Nat))
    (prompt : List Char) (s : FState) : Prop :=
  if prompt = [] then s = ⟨[], false, 0⟩
  else ∃ out : List Nat,
    (if ranks = [] then out = combinedMatches names prompt
     else SortSpec ranks names (combinedMatches names prompt) out) ∧
    s = ⟨out, out.isEmpty, 0⟩

theorem mem_combinedMatches (names : List (List Char)) (prompt : List Char)
    (i : Nat) :
    i ∈ combinedMatches names prompt ↔
      i < names.length ∧ (hasSub prompt (nameOf names i) = true ∨
        edit_distance_ prompt (nameOf names i) ≤ 4) := by
  rw [combinedMatches, List.mem_append, substrMatches, fuzzyNew]
  rw [List.mem_filter, List.mem_filter, List.mem_range,
    bkQuery_built_mem names prompt 4 i]
  constructor
  · rintro (⟨h1, h2⟩ | ⟨⟨h1, h2⟩, h3⟩)
    · exact ⟨h1, Or.inl h2⟩
    · exact ⟨h1, Or.inr h2⟩
  · rintro ⟨h1, h2 | h2⟩
    · exact Or.inl ⟨h1, h2⟩
    · by_cases hs : hasSub prompt (nameOf names i) = true
      · exact Or.inl ⟨h1, hs⟩
      · refine Or.inr ⟨⟨h1, h2⟩, ?_⟩
        simp only [Bool.not_eq_true']
        rw [List.contains_eq_any_beq]
        rw [List.any_eq_false]
        intro x hx
        rw [substrMatches, List.mem_filter] at hx
        intro hbeq
        rw [beq_iff_eq] at hbeq
        subst hbeq
        exact hs hx.2

/-- C6 counterexample: with a one-entry store, the empty-query recompute
yields the empty view, not the identity sequence `[0..1)`: `filter_apps`
executes `filtered_apps.clear()` on an empty prompt.  (The identity order
shown at startup comes from `parse_apps`, which pushes `0..N-1` into
`filtered_apps` while loading, not from the recompute.) -/
theorem C6_counterexample_empty_query_clears :
    FilterApplied [['a']] [] [] ⟨[], false, 0⟩ ∧
    ¬ FilterApplied [['a']] [] [] ⟨List.range 1, false, 0⟩ := by
  constructor
  · rw [FilterApplied, if_pos rfl]
  · rw [FilterApplied, if_pos rfl]
    simp

/-- C6 amended: whenever the query text becomes empty, the recompute
clears FilteredView (it becomes the empty sequence, not the identity
sequence over the Entry Store) and sets the no-matches flag to false;
the list cursor is reset to 0. -/
theorem C6_amended_empty_query (names : List (List Char))
    (ranks : List (List Char × Nat)) (s : FState)
    (h : FilterApplied names ranks [] s) :
    s.filtered = [] ∧ s.noMatches = false ∧ s.lcursor = 0 := by
  rw [FilterApplied, if_pos rfl] at h
  subst h
  exact ⟨rfl, rfl, rfl⟩

theorem C6_amended_empty_query_witness :
    (⟨[], false, 0⟩ : FState).filtered = [] ∧
    (⟨[], false, 0⟩ : FState).noMatches = false ∧
    (⟨[], false, 0⟩ : FState).lcursor = 0 :=
  C6_amended_empty_query [['a']] [(['a'], 3)] ⟨[], false, 0⟩
    (by rw [FilterApplied, if_pos rfl])

theorem pair_substr :
    substrMatches [['a', 'a'], ['a', 'b']] ['a'] = [0, 1] := by
  decide

theorem pair_combined :
    combinedMatches [['a', 'a'], ['a', 'b']] ['a'] = [0, 1] := by
  have hfz : fuzzyNew [['a', 'a'], ['a', 'b']] ['a'] = [] := by
    rw [fuzzyNew]
    refine List.filter_eq_nil_iff.mpr ?_
    intro m hm
    have hmem := (bkQuery_built_mem [['a', 'a'], ['a', 'b']] ['a'] 4 m).mp hm
    have hm2 : m < 2 := by simpa using hmem.1
    rw [pair_substr]
    interval_cases m <;> decide
  rw [combinedMatches, pair_substr, hfz]
  rfl

theorem pair_filterApplied :
    FilterApplied [['a', 'a'], ['a', 'b']] [(['a', 'a'], 1), (['a', 'b'], 1)]
      ['a'] ⟨[1, 0], false, 0⟩ := by
  rw [FilterApplied, if_neg (by decide)]
  refine ⟨[1, 0], ?_, by decide⟩
  rw [if_neg (by decide), pair_combined]
  refine ⟨by decide, ?_⟩
  rw [SortedByRank]
  exact List.chain'_cons.mpr ⟨by decide, List.chain'_singleton _⟩

/-- C2 counterexample: `filter_apps` sorts with `std::sort`, whose
contract does not preserve the relative order of tied elements.  With two
entries `aa`, `ab`, both substring matches for prompt `a` and both with
rank count 1, the pre-sort order is `[0, 1]`, yet the post-state with
view `[1, 0]` also satisfies the `std::sort` contract: the claimed
stable-sort (tie-preserving) behaviour is not guaranteed by the code. -/
theorem C2_counterexample_unstable_sort :
    FilterApplied [['a', 'a'], ['a', 'b']] [(['a', 'a'], 1), (['a', 'b'], 1)]
      ['a'] ⟨[1, 0], false, 0⟩ ∧
    combinedMatches [['a', 'a'], ['a', 'b']] ['a'] = [0, 1] ∧
    rankOf [(['a', 'a'], 1), (['a', 'b'], 1)]
        (nameOf [['a', 'a'], ['a', 'b']] 0) =
      rankOf [(['a', 'a'], 1), (['a', 'b'], 1)]
        (nameOf [['a', 'a'], ['a', 'b']] 1) ∧
    ([1, 0] : List Nat) ≠ [0, 1] :=
  ⟨pair_filterApplied, pair_combined, by decide, by decide⟩

/-- C2 amended: for a non-empty prompt and a non-empty rank table, every
admissible post-state of `filter_apps` holds a permutation of the
substring+fuzzy combined sequence, sorted descending by rank count
(absent entries counting as 0); membership is exactly substring-or-fuzzy
match; the no-matches flag mirrors emptiness and the list cursor resets.
The relative order of entries with equal counts is NOT specified:
`std::sort` gives no stability guarantee. -/
theorem C2_amended_ranking (names : List (List Char))
    (ranks : List (List Char × Nat)) (prompt : List Char) (s : FState)
    (hp : prompt ≠ []) (hr : ranks ≠ [])
    (h : FilterApplied names ranks prompt s) :
    s.filtered.Perm (combinedMatches names prompt) ∧
    SortedByRank ranks names s.filtered ∧
    (∀ i, i ∈ s.filtered ↔ i < names.length ∧
      (hasSub prompt (nameOf names i) = true ∨
        edit_distance_ prompt (nameOf names i) ≤ 4)) ∧
    s.noMatches = s.filtered.isEmpty ∧ s.lcursor = 0 := by
  rw [FilterApplied, if_neg hp] at h
  obtain ⟨out, hsort, hs⟩ := h
  rw [if_neg hr] at hsort
  subst hs
  refine ⟨hsort.1.symm, hsort.2, ?_, rfl, rfl⟩
  intro i
  rw [← mem_combinedMatches names prompt i]
  exact ⟨fun hm => hsort.1.symm.mem_iff.mp hm, fun hm => hsort.1.mem_iff.mp hm⟩

theorem C2_amended_ranking_witness :
    (⟨[1, 0], false, 0⟩ : FState).filtered.Perm
      (combinedMatches [['a', 'a'], ['a', 'b']] ['a']) ∧
    SortedByRank [(['a', 'a'], 1), (['a', 'b'], 1)] [['a', 'a'], ['a', 'b']]
      (⟨[1, 0], false, 0⟩ : FState).filtered :=
  have h := C2_amended_ranking [['a', 'a'], ['a', 'b']]
    [(['a', 'a'], 1), (['a', 'b'], 1)] ['a'] ⟨[1, 0], false, 0⟩
    (by decide) (by decide)
    pair_filterApplied
  ⟨h.1, h.2.1⟩

/-! ### The history log (`split`, `parse_ranks`, `write_rank`,
src/rapp.cpp:130-146, 710-728)

`split(sv, delim)` emits the segment before every delimiter occurrence and
then the final segment only when it is non-empty (the `if (start <
sv.size())` guard): exactly one trailing empty segment is dropped, interior
empty segments are kept.  `parse_ranks` counts occurrences per line;
`write_rank` appends `rank` and a newline. -/

def csplit (d : Char) (s : List Char) : List (List Char) :=
  match hr : s.dropWhile (fun c => c != d) with
  | [] =>
    if s.takeWhile (fun c => c != d) = [] then []
    else [s.takeWhile (fun c => c != d)]
  | _ :: rest => s.takeWhile (fun c => c != d) :: csplit d rest
termination_by s.length
decreasing_by
  have h1 : (s.dropWhile (fun c => c != d)).length ≤ s.length :=
    (List.dropWhile_sublist _).length_le
  rw [hr] at h1
  simp only [List.length_cons] at h1
  omega

theorem csplit_nil (d : Char) : csplit d [] = [] := by
  rw [csplit]
  rfl

/-- `parse_ranks` reconstructs, for each name, one count per occurrence of
that line in the log (`ranks[line]++`). -/
def rankCount (content : List Char) (name : List Char) : Nat :=
  (csplit '\n' content).count name

/-- `write_rank`: append the launched name and a newline to the log. -/
def writeRank (content : List Char) (name : List Char) : List Char :=
  content ++ name ++ ['\n']

theorem takeWhile_all_append {p : Char → Bool} :
    ∀ {u : List Char}, (∀ c ∈ u, p c = true) → ∀ v : List Char,
      (u ++ v).takeWhile p = u ++ v.takeWhile p := by
  intro u
  induction u with
  | nil => intro h v; simp
  | cons c t ih =>
    intro h v
    rw [List.cons_append, List.takeWhile_cons, if_pos (h c (by simp)),
      List.cons_append, ih (fun x hx => h x (by simp [hx])) v]

theorem dropWhile_all_append {p : Char → Bool} :
    ∀ {u : List Char}, (∀ c ∈ u, p c = true) → ∀ v : List Char,
      (u ++ v).dropWhile p = v.dropWhile p := by
  intro u
  induction u with
  | nil => intro h v; simp
  | cons c t ih =>
    intro h v
    rw [List.cons_append, List.dropWhile_cons, if_pos (h c (by simp))]
    exact ih (fun x hx => h x (by simp [hx])) v

theorem takeWhile_append_of_break {p : Char → Bool} :
    ∀ {u : List Char}, u.dropWhile p ≠ [] → ∀ v : List Char,
      (u ++ v).takeWhile p = u.takeWhile p := by
  intro u
  induction u with
  | nil => intro h; simp at h
  | cons c t ih =>
    intro h v
    rw [List.dropWhile_cons] at h
    by_cases hc : p c
    · rw [if_pos hc] at h
      rw [List.cons_append, List.takeWhile_cons, if_pos hc, ih h v,
        List.takeWhile_cons, if_pos hc]
    · rw [List.cons_append, List.takeWhile_cons, if_neg hc,
        List.takeWhile_cons, if_neg hc]

theorem dropWhile_append_of_break {p : Char → Bool} :
    ∀ {u : List Char}, u.dropWhile p ≠ [] → ∀ v : List Char,
      (u ++ v).dropWhile p = u.dropWhile p ++ v := by
  intro u
  induction u with
  | nil => intro h; simp at h
  | cons c t ih =>
    intro h v
    rw [List.dropWhile_cons] at h
    by_cases hc : p c
    · rw [if_pos hc] at h
      rw [List.cons_append, List.dropWhile_cons, if_pos hc, ih h v,
        List.dropWhile_cons, if_pos hc]
    · rw [List.cons_append, List.dropWhile_cons, if_neg hc,
        List.dropWhile_cons, if_neg hc, List.cons_append]

theorem dropWhile_head_false {p : Char → Bool} :
    ∀ {u : List Char} {c : Char} {r : List Char},
      u.dropWhile p = c :: r → p c = false := by
  intro u
  induction u with
  | nil => intro c r h; simp at h
  | cons x t ih =>
    intro c r h
    rw [List.dropWhile_cons] at h
    by_cases hx : p x
    · rw [if_pos hx] at h
      exact ih h
    · rw [if_neg hx] at h
      injection h with h1 h2
      subst h1
      exact Bool.not_eq_true _ ▸ (by simpa using hx)

/-- Splitting distributes over appending to a newline-terminated (or
empty) log. -/
theorem csplit_append (d : Char) :
    ∀ (fuel : Nat) (u v : List Char), u.length ≤ fuel →
      (u = [] ∨ u.getLast? = some d) →
      csplit d (u ++ v) = csplit d u ++ csplit d v := by
  intro fuel
  induction fuel with
  | zero =>
    intro u v hle hu
    have : u = [] := List.eq_nil_of_length_eq_zero (by omega)
    subst this
    rw [csplit_nil]
    rfl
  | succ fuel ih =>
    intro u v hle hu
    rcases hu with rfl | hlast
    · rw [csplit_nil]
      rfl
    · have hne : u ≠ [] := by
        intro h
        subst h
        simp at hlast
      have hdmem : d ∈ u := by
        have hsome := List.getLast?_eq_getLast_of_ne_nil hne
        rw [hsome] at hlast
        injection hlast with hg
        rw [← hg]
        exact List.getLast_mem hne
      have hdw : u.dropWhile (fun c => c != d) ≠ [] := by
        intro h
        have hall := List.dropWhile_eq_nil_iff.mp h
        have := hall d hdmem
        simp at this
      obtain ⟨r, hr⟩ : ∃ r, u.dropWhile (fun c => c != d) = d :: r := by
        cases hcase : u.dropWhile (fun c => c != d) with
        | nil => exact absurd hcase hdw
        | cons c r =>
          have hcfalse := dropWhile_head_false hcase
          have hcd : c = d := by simpa using hcfalse
          exact ⟨r, by rw [hcd]⟩
      have hudecomp : u.takeWhile (fun c => c != d) ++ (d :: r) = u := by
        rw [← hr]
        exact List.takeWhile_append_dropWhile _ _
      have h1 : csplit d u = u.takeWhile (fun c => c != d) :: csplit d r := by
        rw [csplit]
        split
        · rename_i heq
          exact absurd heq hdw
        · rename_i c rest heq
          have := heq.symm.trans hr
          injection this with hcd hrest
          rw [hrest]
      have h2 : csplit d (u ++ v) =
          u.takeWhile (fun c => c != d) :: csplit d (r ++ v) := by
        rw [csplit]
        split
        · rename_i heq
          rw [dropWhile_append_of_break hdw v] at heq
          simp [hr] at heq
        · rename_i c rest heq
          rw [dropWhile_append_of_break hdw v, hr] at heq
          injection heq with hcd hrest
          rw [← hrest, takeWhile_append_of_break hdw v]
          rfl
      have hrlen : r.length ≤ fuel := by
        have hlen : u.length = (u.takeWhile (fun c => c != d)).length + r.length + 1 := by
          conv_lhs => rw [← hudecomp]
          simp only [List.length_append, List.length_cons]
          omega
        omega
      have hrlast : r = [] ∨ r.getLast? = some d := by
        cases r with
        | nil => exact Or.inl rfl
        | cons c t =>
          refine Or.inr ?_
          have hgl : u.getLast? = (c :: t).getLast? := by
            conv_lhs => rw [← hudecomp]
            rw [List.getLast?_append_cons, List.getLast?_cons_cons]
          rw [← hgl]
          exact hlast
      rw [h1, h2, ih r v hrlen hrlast]
      rfl

/-- Appending one `name`-line to a well-formed log adds exactly that line
to the parse and increments its count by one. -/
theorem writeRank_roundtrip (content X : List Char) (hX : ('\n') ∉ X)
    (hc : content = [] ∨ content.getLast? = some '\n') :
    csplit '\n' (writeRank content X) = csplit '\n' content ++ [X] ∧
    rankCount (writeRank content X) X = rankCount content X + 1 := by
  have hXall : ∀ c ∈ X, (fun c => c != '\n') c = true := by
    intro c hcX
    simp only [bne_iff_ne, ne_eq, decide_eq_true_eq]
    intro h
    subst h
    exact hX hcX
  have hXsplit : csplit '\n' (X ++ ['\n']) = [X] := by
    rw [csplit]
    split
    · rename_i heq
      rw [dropWhile_all_append hXall ['\n']] at heq
      simp at heq
    · rename_i c rest heq
      rw [dropWhile_all_append hXall ['\n']] at heq
      simp only [List.dropWhile_cons] at heq
      rw [if_neg (by simp)] at heq
      injection heq with hcd hrest
      rw [← hrest, csplit_nil, takeWhile_all_append hXall ['\n']]
      simp
  have hsplit : csplit '\n' (writeRank content X) =
      csplit '\n' content ++ [X] := by
    rw [writeRank, List.append_assoc,
      csplit_append '\n' content.length content (X ++ ['\n']) (le_refl _) hc,
      hXsplit]
  refine ⟨hsplit, ?_⟩
  rw [rankCount, rankCount, hsplit, List.count_append]
  simp

/-- C9: launching entry `X` appends exactly one line containing `X` to the
history log, and reloading the log reconstructs a count for `X` equal to
the previous count plus one (one count per occurrence of each distinct
line).  Hypotheses: the name has no embedded newline, and the existing log
is empty or newline-terminated (as `write_rank` always leaves it). -/
theorem C9_history_roundtrip (content X : List Char) (hX : ('\n') ∉ X)
    (hc : content = [] ∨ content.getLast? = some '\n') :
    csplit '\n' (writeRank content X) = csplit '\n' content ++ [X] ∧
    rankCount (writeRank content X) X = rankCount content X + 1 :=
  writeRank_roundtrip content X hX hc

theorem C9_history_roundtrip_witness :
    csplit '\n' (writeRank ['a', '\n'] ['b']) =
      csplit '\n' ['a', '\n'] ++ [['b']] ∧
    rankCount (writeRank ['a', '\n'] ['b']) ['b'] =
      rankCount ['a', '\n'] ['b'] + 1 :=
  C9_history_roundtrip ['a', '\n'] ['b'] (by decide) (Or.inr (by decide))

/-! ### Launching and the confirm key (src/rapp.cpp:269-327, 365-368,
700-707, 805-922)

`launch_application` strips `%x` field-code pairs, tokenizes on spaces and
forks; the `fork` result is an external input of the model.  On
`IsKeyPressed(KEY_ENTER)`, `handle_keys` calls `launch_application`, sets
`launched_application = name` and returns `true` unconditionally; `main`
then jumps to `end:`, leaves the interactive loop, and appends one history
line when `launched_application` is non-empty. -/

/-- `while (pos != npos) cleaned_command.erase(pos, 2)`: strip each
two-character `%x` field code (a trailing lone `%` is erased too). -/
def stripFieldCodes : List Char → List Char
  | [] => []
  | '%' :: [] => []
  | '%' :: _ :: rest => stripFieldCodes rest
  | c :: rest => c :: stripFieldCodes rest

/-- Tokenization on single spaces, empty tokens skipped. -/
def tokenizeArgs (s : List Char) : List (List Char) :=
  (s.splitOn ' ').filter (fun t => t ≠ [])

structure LaunchResult where
  argv : List (List Char)
  reportedError : Bool
  childSpawned : Bool
deriving DecidableEq, Repr

/-- `launch_application(command)`: the parent-side observable outcome.
`forkFails` models the external `fork() < 0` result; on failure the
function prints `perror("fork failed")` and simply returns - it has no
way to report failure to its caller. -/
def launch_application (command : List Char) (forkFails : Bool) : LaunchResult :=
  { argv := tokenizeArgs (stripFieldCodes command)
    reportedError := forkFails
    childSpawned := !forkFails }

structure EnterOutcome where
  loopExits : Bool
  historyLines : List (List Char)
  errorReported : Bool
deriving DecidableEq, Repr

/-- The ENTER branch of `handle_keys` glued to the epilogue of `main`:
launch, record `launched_application = name`, return `true` (so `main`
executes `goto end`), close down and append one history line iff the name
is non-empty.  Nothing in this path consults the fork outcome. -/
def enterKeyOutcome (name exec : List Char) (forkFails : Bool) : EnterOutcome :=
  { loopExits := true
    historyLines := if name ≠ [] then [name] else []
    errorReported := (launch_application exec forkFails).reportedError }

/-- C7 counterexample: when `fork` fails on launching entry `x`, the
interactive loop still exits (`handle_keys` returns `true` regardless)
and one history line for `x` is still recorded - contradicting the claim
that the loop continues and no history line is written. -/
theorem C7_counterexample_spawn_failure :
    (enterKeyOutcome ['x'] ['x'] true).loopExits = true ∧
    (enterKeyOutcome ['x'] ['x'] true).historyLines = [['x']] ∧
    (enterKeyOutcome ['x'] ['x'] true).errorReported = true := by
  refine ⟨rfl, by decide, rfl⟩

/-- C7 amended: on fork failure the error is reported and no child is
spawned, but the launch attempt is still treated as a successful launch:
the loop exits and exactly one history line is appended for the entry,
so a reload counts the failed attempt. -/
theorem C7_amended_spawn_failure (name exec content : List Char)
    (hn : name ≠ []) (hnl : ('\n') ∉ name)
    (hc : content = [] ∨ content.getLast? = some '\n') :
    (launch_application exec true).reportedError = true ∧
    (launch_application exec true).childSpawned = false ∧
    (enterKeyOutcome name exec true).loopExits = true ∧
    (enterKeyOutcome name exec true).historyLines = [name] ∧
    rankCount (writeRank content name) name = rankCount content name + 1 := by
  refine ⟨rfl, rfl, rfl, ?_, (writeRank_roundtrip content name hnl hc).2⟩
  rw [enterKeyOutcome]
  simp [hn]

theorem C7_amended_spawn_failure_witness :
    (launch_application ['x'] true).reportedError = true ∧
    (launch_application ['x'] true).childSpawned = false ∧
    (enterKeyOutcome ['f'] ['x'] true).loopExits = true ∧
    (enterKeyOutcome ['f'] ['x'] true).historyLines = [['f']] ∧
    rankCount (writeRank ['f', '\n'] ['f']) ['f'] =
      rankCount ['f', '\n'] ['f'] + 1 :=
  C7_amended_spawn_failure ['f'] ['x'] ['f', '\n'] (by decide) (by decide)
    (Or.inr (by decide))

/-! ### `get_app` and the confirm key (src/rapp.cpp:365-368, 700-705) -/

structure App where
  name : List Char
  exec : List Char
deriving DecidableEq, Repr

/-- `no_matches ? apps[idx] : apps[filtered_apps[idx]]` (`operator[]` of
`std::vector` is unchecked; totalized with a default, with the in-range
case stated under a bound hypothesis). -/
def get_app (noMatches : Bool) (apps : List App) (filtered : List Nat)
    (idx : Nat) : App :=
  if noMatches then apps.getD idx ⟨[], []⟩
  else apps.getD (filtered.getD idx 0) ⟨[], []⟩

/-- The `IsKeyPressed(KEY_ENTER)` branch: launch `get_app(lcursor).exec`,
record the name, return `true`. -/
def enterLaunch (noMatches : Bool) (apps : List App) (filtered : List Nat)
    (lcursor : Nat) : List Char × List Char × Bool :=
  ((get_app noMatches apps filtered lcursor).exec,
    (get_app noMatches apps filtered lcursor).name, true)

/-- C10: when the no-matches flag is set (non-empty query, empty result
set, "[no matches]" displayed), `get_app` ignores FilteredView entirely
and indexes the full Entry Store, so the confirm key launches
`apps[list_cursor]` from the unfiltered store instead of being a no-op. -/
theorem C10_no_matches_bypasses_filter (apps : List App)
    (filtered : List Nat) (lcursor : Nat) (h : lcursor < apps.length) :
    (∀ filtered2 : List Nat,
      get_app true apps filtered2 lcursor = apps.get ⟨lcursor, h⟩) ∧
    (enterLaunch true apps filtered lcursor).2.2 = true ∧
    (enterLaunch true apps filtered lcursor).1 =
      (apps.get ⟨lcursor, h⟩).exec ∧
    (enterLaunch true apps filtered lcursor).2.1 =
      (apps.get ⟨lcursor, h⟩).name := by
  have hg : ∀ filtered2 : List Nat,
      get_app true apps filtered2 lcursor = apps.get ⟨lcursor, h⟩ := by
    intro filtered2
    rw [get_app, if_pos rfl]
    rw [List.getD_eq_getElem _ _ h]
    simp
  refine ⟨hg, rfl, ?_, ?_⟩
  · rw [enterLaunch, hg filtered]
  · rw [enterLaunch, hg filtered]

theorem C10_no_matches_bypasses_filter_witness :
    get_app true [⟨['a'], ['x']⟩] [5] 0 =
      ([⟨['a'], ['x']⟩] : List App).get ⟨0, by decide⟩ ∧
    (enterLaunch true [⟨['a'], ['x']⟩] [] 0).2.2 = true ∧
    (enterLaunch true [⟨['a'], ['x']⟩] [] 0).1 =
      (([⟨['a'], ['x']⟩] : List App).get ⟨0, by decide⟩).exec :=
  have h := C10_no_matches_bypasses_filter [⟨['a'], ['x']⟩] [] 0 (by decide)
  ⟨h.1 [5], h.2.1, h.2.2.1⟩

end Rapp
